import Mathlib

/-!
# Verification of the MLP variational auto-encoder (`image_vae.py`)

Shallow embedding of `src/tensorflow_examples/variational_auto_encoder/image_vae.py`.

Tensors are embedded as lists of rows (`Mat α`) over a linear ordered field
`α`; the float computations of the source are modelled by exact field
arithmetic (`ℚ` for executable witnesses, `ℝ` where the source uses
transcendental functions: `sigmoid`, the Gaussian log in the KL term, and
the Gaussian distribution itself).  TensorFlow library calls are embedded by
their documented elementwise semantics; `tf.random.normal(shape, mean,
stddev)` draws standard normal noise and returns `mean + stddev * noise`,
so randomness is modelled by an explicit noise function passed to the
operation.  Stateful code (the training loop) is embedded as explicit state
passing, with the opaque optimizer collaborator abstracted as a state
transformer.
-/

/-- `hidden_1_dim = int(input_dim - (input_dim - code_dim) / 4)` from `__init__`.
The Python float division and subtraction are exact here (division by 4 and
integer operands), so the computation is embedded over `ℚ`; `int` truncation
of a non-negative value is `Int.floor` followed by `Int.toNat`. -/
def hidden_1_dim (input_dim code_dim : ℕ) : ℕ :=
  (Int.floor ((input_dim : ℚ) - ((input_dim : ℚ) - (code_dim : ℚ)) / 4)).toNat

/-- `hidden_2_dim = int(input_dim - 3 * (input_dim - code_dim) / 4)` from `__init__`. -/
def hidden_2_dim (input_dim code_dim : ℕ) : ℕ :=
  (Int.floor ((input_dim : ℚ) - 3 * ((input_dim : ℚ) - (code_dim : ℚ)) / 4)).toNat

/-- A tensor of rank 2: a list of rows. -/
abbrev Mat (α : Type) := List (List α)

/-- Dot product of two equally long vectors (the inner loop of `tf.matmul`). -/
def dot {α : Type} [LinearOrderedField α] (xs ys : List α) : α :=
  (List.zipWith (fun a b => a * b) xs ys).sum

/-- `tf.transpose`: column `j` of `A` becomes row `j`.  The number of columns
is read off the first row, as the static shape of a TensorFlow tensor would
provide it. -/
def matTranspose {α : Type} [LinearOrderedField α] (A : Mat α) : Mat α :=
  (List.range (A.headD []).length).map (fun j => A.map (fun r => r.getD j 0))

/-- `tf.matmul(A, B, transpose_b=True)`: entry `(i, j)` is `dot (row i of A) (row j of B)`. -/
def matmulTB {α : Type} [LinearOrderedField α] (A B : Mat α) : Mat α :=
  A.map (fun ra => B.map (fun rb => dot ra rb))

/-- `tf.matmul(A, B)`: entry `(i, j)` is `dot (row i of A) (column j of B)`. -/
def matmul {α : Type} [LinearOrderedField α] (A B : Mat α) : Mat α :=
  matmulTB A (matTranspose B)

/-- Broadcast addition of a column vector `b` (shape `(p, 1)`) to a matrix `A`
of shape `(p, n)`: TensorFlow adds `b i 0` to every entry of row `i`. -/
def addColVec {α : Type} [LinearOrderedField α] (A b : Mat α) : Mat α :=
  List.zipWith (fun ra rb => ra.map (fun x => x + rb.headD 0)) A b

/-- Elementwise map over a matrix. -/
def mapMat {α : Type} (f : α → α) (A : Mat α) : Mat α :=
  A.map (fun r => r.map f)

/-- Elementwise combination of two matrices of equal shape. -/
def zipWithMat {α : Type} (f : α → α → α) (A B : Mat α) : Mat α :=
  List.zipWith (fun ra rb => List.zipWith f ra rb) A B

/-- `tf.nn.leaky_relu` with its default slope `alpha = 0.2 = 1/5`. -/
def leakyRelu {α : Type} [LinearOrderedField α] (x : α) : α :=
  if x < 0 then x / 5 else x

/-- Well-formedness of a rank-2 tensor: `m` rows, each of length `n`. -/
def Wf {α : Type} (A : Mat α) (m n : ℕ) : Prop :=
  A.length = m ∧ ∀ r ∈ A, r.length = n

instance {α : Type} (A : Mat α) (m n : ℕ) : Decidable (Wf A m n) :=
  inferInstanceAs (Decidable (A.length = m ∧ ∀ r ∈ A, r.length = n))

/-- The static shape of a rank-2 tensor (`.shape` in TensorFlow), with the
column count read off the first row. -/
def matShape {α : Type} (A : Mat α) : ℕ × ℕ :=
  (A.length, (A.headD []).length)

/-- Membership of a value among the entries of a matrix. -/
def matMem {α : Type} (x : α) (A : Mat α) : Prop :=
  ∃ r ∈ A, x ∈ r

/-- The parameter store of `MLPVariationalAutoEncoder`: the 12 tensors of the
`self._params` dictionary, one record field per dictionary key. -/
structure MLPVariationalAutoEncoder (α : Type) where
  enc_W0 : Mat α
  enc_b0 : Mat α
  enc_W1 : Mat α
  enc_b1 : Mat α
  enc_W2 : Mat α
  enc_b2 : Mat α
  dec_W0 : Mat α
  dec_b0 : Mat α
  dec_W1 : Mat α
  dec_b1 : Mat α
  dec_W2 : Mat α
  dec_b2 : Mat α

/-- `tf.random.normal((r, c), mean=0.0, stddev=0.05)`: the library draws one
standard normal noise value per entry and returns `mean + stddev * noise`;
the noise is the explicit function `ω`. -/
def randnMat {α : Type} [LinearOrderedField α] (ω : ℕ → ℕ → α) (r c : ℕ) : Mat α :=
  (List.range r).map (fun a => (List.range c).map (fun b => 0 + (1 / 20) * ω a b))

/-- `tf.zeros((r, 1))`. -/
def zerosCol {α : Type} [LinearOrderedField α] (r : ℕ) : Mat α :=
  (List.range r).map (fun _ => [0])

/-- `MLPVariationalAutoEncoder.__init__`.  The leading
`assert code_dim < input_dim` is embedded as `Option`: `none` is the
assertion failure, in which case no parameter tensor is built.  `ω t` is the
standard normal noise stream used for weight tensor number `t`. -/
def MLPVariationalAutoEncoder.init {α : Type} [LinearOrderedField α] (ω : ℕ → ℕ → ℕ → α)
    (input_dim code_dim : ℕ) : Option (MLPVariationalAutoEncoder α) :=
  if code_dim < input_dim then
    some { enc_W0 := randnMat (ω 0) (hidden_1_dim input_dim code_dim) input_dim
           enc_b0 := zerosCol (hidden_1_dim input_dim code_dim)
           enc_W1 := randnMat (ω 1) (hidden_2_dim input_dim code_dim)
             (hidden_1_dim input_dim code_dim)
           enc_b1 := zerosCol (hidden_2_dim input_dim code_dim)
           enc_W2 := randnMat (ω 2) (code_dim * 2) (hidden_2_dim input_dim code_dim)
           enc_b2 := zerosCol (code_dim * 2)
           dec_W0 := randnMat (ω 3) (hidden_2_dim input_dim code_dim) code_dim
           dec_b0 := zerosCol (hidden_2_dim input_dim code_dim)
           dec_W1 := randnMat (ω 4) (hidden_1_dim input_dim code_dim)
             (hidden_2_dim input_dim code_dim)
           dec_b1 := zerosCol (hidden_1_dim input_dim code_dim)
           dec_W2 := randnMat (ω 5) input_dim (hidden_1_dim input_dim code_dim)
           dec_b2 := zerosCol input_dim }
  else none

/-- `MLPVariationalAutoEncoder.encode`.  `inputs` has one example per row. -/
def MLPVariationalAutoEncoder.encode {α : Type} [LinearOrderedField α]
    (self : MLPVariationalAutoEncoder α) (inputs : Mat α) : Mat α × Mat α :=
  let hidden_layer_1 := mapMat leakyRelu (addColVec (matmulTB self.enc_W0 inputs) self.enc_b0)
  let hidden_layer_2 := mapMat leakyRelu (addColVec (matmul self.enc_W1 hidden_layer_1) self.enc_b1)
  let encoded_distribution := matTranspose (addColVec (matmul self.enc_W2 hidden_layer_2) self.enc_b2)
  let code_dim := (encoded_distribution.headD []).length / 2
  let mean := encoded_distribution.map (fun r => r.take code_dim)
  let stddev := encoded_distribution.map (fun r => (r.drop code_dim).map (fun x => |x|))
  (mean, stddev)

/-- `MLPVariationalAutoEncoder.sample_encoding`.  The `assert mean.shape ==
stddev.shape` is embedded as `Option` (`none` is the shape failure).  On
success the `tf.random.normal((mean.shape[0], mean.shape[1]), mean=mean,
stddev=stddev)` call returns `mean + stddev * noise` elementwise, with `η`
the standard normal noise. -/
def MLPVariationalAutoEncoder.sample_encoding {α : Type} [LinearOrderedField α]
    (mean stddev : Mat α) (η : ℕ → ℕ → α) : Option (Mat α) :=
  if matShape mean = matShape stddev then
    some ((List.range mean.length).map (fun i =>
      (List.range (mean.headD []).length).map (fun j =>
        (mean.getD i []).getD j 0 + (stddev.getD i []).getD j 0 * η i j)))
  else none

/-- `tf.nn.sigmoid`. -/
noncomputable def sigmoid (x : ℝ) : ℝ := 1 / (1 + Real.exp (-x))

/-- `MLPVariationalAutoEncoder.decode`. -/
noncomputable def MLPVariationalAutoEncoder.decode (self : MLPVariationalAutoEncoder ℝ)
    (sampled_encoding : Mat ℝ) : Mat ℝ :=
  let hidden_layer_1 := mapMat leakyRelu (addColVec (matmulTB self.dec_W0 sampled_encoding) self.dec_b0)
  let hidden_layer_2 := mapMat leakyRelu (addColVec (matmul self.dec_W1 hidden_layer_1) self.dec_b1)
  matTranspose (mapMat sigmoid (addColVec (matmul self.dec_W2 hidden_layer_2) self.dec_b2))

/-- Modelled semantics of the `tf.losses.kullback_leibler_divergence(
tfp.distributions.Normal(0.0, 1.0), tfp.distributions.Normal(mean, stddev))`
call in `loss`: the KL divergence between `N(0,1)` and `N(m, s)` for one
coordinate, `log s + (1 + m^2) / (2 s^2) - 1/2`, computed elementwise over
the `(batch, code_dim)`-shaped `mean`/`stddev` tensors and not reduced. -/
noncomputable def klNormalStd (m s : ℝ) : ℝ :=
  Real.log s + (1 + m ^ 2) / (2 * s ^ 2) - 1 / 2

/-- `tf.losses.mean_squared_error(y_true, y_pred)`: the mean over the last
axis of the squared differences, one value per example row. -/
def mean_squared_error_rows {α : Type} [LinearOrderedField α] (y_true y_pred : Mat α) : List α :=
  List.zipWith (fun a b => (List.zipWith (fun x y => (x - y) ^ 2) a b).sum / (a.length : α))
    y_true y_pred

/-- `tf.reduce_mean` of a rank-1 tensor. -/
def reduce_mean {α : Type} [LinearOrderedField α] (xs : List α) : α :=
  xs.sum / (xs.length : α)

/-- `MLPVariationalAutoEncoder.loss`.  `η` is the standard normal noise used
by the `sample_encoding` call; `none` is the propagated assertion failure.
The returned value is `(3 * mean_square_error + kl_divergence) / 4`, the
scalar `mean_square_error` broadcast over the KL tensor. -/
noncomputable def MLPVariationalAutoEncoder.loss (self : MLPVariationalAutoEncoder ℝ)
    (inputs : Mat ℝ) (η : ℕ → ℕ → ℝ) : Option (Mat ℝ) :=
  let ms := self.encode inputs
  let kl_divergence := zipWithMat klNormalStd ms.1 ms.2
  match MLPVariationalAutoEncoder.sample_encoding ms.1 ms.2 η with
  | none => none
  | some encoded =>
    let decoded := self.decode encoded
    let mean_square_error := reduce_mean (mean_squared_error_rows inputs decoded)
    some (mapMat (fun k => (3 * mean_square_error + k) / 4) kl_divergence)

/-- The batch loop of one epoch in `train`:
`for batch_num in range(int(inputs.shape[0] / batch_size))`, each step
consuming `inputs[batch_num * batch_size : batch_num * batch_size +
batch_size]`.  The `_training_step` body (loss, gradients, and the opaque
optimizer's `apply_gradients`) is abstracted as the state transformer
`training_step` on the parameter state `σ`. -/
def epochLoop {α σ : Type} (training_step : σ → Mat α → σ)
    (inputs : Mat α) (batch_size : ℕ) (s : σ) : σ :=
  (List.range (inputs.length / batch_size)).foldl
    (fun st batch_num => training_step st ((inputs.drop (batch_num * batch_size)).take batch_size))
    s

/-- The list of batches an epoch iterates over. -/
def batchesOf {α : Type} (inputs : Mat α) (batch_size : ℕ) : List (Mat α) :=
  (List.range (inputs.length / batch_size)).map
    (fun batch_num => (inputs.drop (batch_num * batch_size)).take batch_size)

/-- The Python truth value of the early-stopping comparison
`val_loss - train_loss > train_loss / 32` in `train`, where both losses are
the tensors returned by the unreduced `loss`.  The subtraction, division and
comparison are elementwise tensor arithmetic, and the enclosing `if`
converts the comparison tensor to a Python bool: that conversion is
well-defined only when both loss tensors consist of exactly one entry.  On
any larger tensors the line raises — an incompatible-shape broadcast error
when the batch counts differ, or the ambiguous-truth-value error of a
multi-element tensor — embedded as `none`. -/
def lossBreakCond {α : Type} [LinearOrderedField α] (train_loss val_loss : Mat α) :
    Option Bool :=
  match train_loss, val_loss with
  | [[tl]], [[vl]] => some (decide (tl / 32 < vl - tl))
  | _, _ => none

/-- The epoch recursion of `train`: `epoch_num` counts from 1, the fuel is
the number of epochs still allowed.  After each epoch the training and
validation losses are computed by `lossOf` (the tensor-valued `self.loss`
evaluation, a function of the current parameter state and the data) and
appended to the report log.  The line
`if epoch_num > 15 and val_loss - train_loss > train_loss / 32` short
circuits on `epoch_num > 15`; once the tensor comparison is evaluated, a
well-defined `True` is the normal `break`, a well-defined `False` continues,
and an ill-defined truth value raises — `none` for the whole run. -/
def trainGo {α σ : Type} [LinearOrderedField α] (training_step : σ → Mat α → σ)
    (lossOf : σ → Mat α → Mat α) (inputs val_inputs : Mat α) (batch_size : ℕ) :
    ℕ → ℕ → σ → List (ℕ × Mat α × Mat α) → Option (σ × List (ℕ × Mat α × Mat α))
  | _, 0, s, log => some (s, log)
  | epoch_num, fuel + 1, s, log =>
    let s1 := epochLoop training_step inputs batch_size s
    let train_loss := lossOf s1 inputs
    let val_loss := lossOf s1 val_inputs
    let log1 := log ++ [(epoch_num, train_loss, val_loss)]
    if 15 < epoch_num then
      match lossBreakCond train_loss val_loss with
      | none => none
      | some true => some (s1, log1)
      | some false =>
        trainGo training_step lossOf inputs val_inputs batch_size (epoch_num + 1) fuel s1 log1
    else trainGo training_step lossOf inputs val_inputs batch_size (epoch_num + 1) fuel s1 log1

/-- `MLPVariationalAutoEncoder.train`: epochs
`for epoch_num in range(1, num_epochs + 1)`. -/
def train {α σ : Type} [LinearOrderedField α] (training_step : σ → Mat α → σ)
    (lossOf : σ → Mat α → Mat α) (inputs val_inputs : Mat α)
    (num_epochs batch_size : ℕ) (s : σ) : Option (σ × List (ℕ × Mat α × Mat α)) :=
  trainGo training_step lossOf inputs val_inputs batch_size 1 num_epochs s []

/-- The `encoded_distribution` intermediate of `encode`: the transposed final
linear output of the encoder, of shape `(batch, 2 * code_dim)`. -/
def encPre {α : Type} [LinearOrderedField α] (self : MLPVariationalAutoEncoder α)
    (inputs : Mat α) : Mat α :=
  matTranspose (addColVec (matmul self.enc_W2
    (mapMat leakyRelu (addColVec (matmul self.enc_W1
      (mapMat leakyRelu (addColVec (matmulTB self.enc_W0 inputs) self.enc_b0))) self.enc_b1)))
    self.enc_b2)

/-- A concrete rational model (`input_dim = 2`, `code_dim = 1`, both hidden
sizes 1) used to instantiate encoder theorems. -/
def P0 : MLPVariationalAutoEncoder ℚ where
  enc_W0 := [[0, 0]]
  enc_b0 := [[0]]
  enc_W1 := [[0]]
  enc_b1 := [[0]]
  enc_W2 := [[0], [0]]
  enc_b2 := [[0], [0]]
  dec_W0 := [[0]]
  dec_b0 := [[0]]
  dec_W1 := [[0]]
  dec_b1 := [[0]]
  dec_W2 := [[0], [0]]
  dec_b2 := [[0], [0]]

/-- A concrete one-example batch of width 2 for `P0`. -/
def X0 : Mat ℚ := [[0, 0]]

/-- The pre-sigmoid final linear output of the decoder, of shape
`(input_dim, batch)`. -/
noncomputable def decPre (self : MLPVariationalAutoEncoder ℝ) (sampled_encoding : Mat ℝ) : Mat ℝ :=
  addColVec (matmul self.dec_W2
    (mapMat leakyRelu (addColVec (matmul self.dec_W1
      (mapMat leakyRelu (addColVec (matmulTB self.dec_W0 sampled_encoding) self.dec_b0)))
      self.dec_b1)))
    self.dec_b2

/-- A concrete real model with `input_dim = 2`, `code_dim = 1`, both hidden
sizes 1, used to instantiate decoder and loss theorems. -/
noncomputable def Q0 : MLPVariationalAutoEncoder ℝ where
  enc_W0 := [[0, 0]]
  enc_b0 := [[0]]
  enc_W1 := [[0]]
  enc_b1 := [[0]]
  enc_W2 := [[0], [0]]
  enc_b2 := [[0], [0]]
  dec_W0 := [[0]]
  dec_b0 := [[0]]
  dec_W1 := [[0]]
  dec_b1 := [[0]]
  dec_W2 := [[0], [0]]
  dec_b2 := [[0], [0]]

/-- A concrete one-example batch of code vectors of width 1 for `Q0`. -/
noncomputable def S0 : Mat ℝ := [[0]]

/-- A concrete one-example real batch of width 2 for `Q0`. -/
noncomputable def XR0 : Mat ℝ := [[0, 0]]

/-- A concrete real model with `input_dim = 3`, `code_dim = 2`, both hidden
sizes 1, on which `loss` visibly returns more than one value. -/
noncomputable def Q1 : MLPVariationalAutoEncoder ℝ where
  enc_W0 := [[0, 0, 0]]
  enc_b0 := [[0]]
  enc_W1 := [[0]]
  enc_b1 := [[0]]
  enc_W2 := [[0], [0], [0], [0]]
  enc_b2 := [[0], [0], [0], [0]]
  dec_W0 := [[0, 0]]
  dec_b0 := [[0]]
  dec_W1 := [[0]]
  dec_b1 := [[0]]
  dec_W2 := [[0], [0], [0]]
  dec_b2 := [[0], [0], [0]]

/-- A concrete one-example real batch of width 3 for `Q1`. -/
noncomputable def X1 : Mat ℝ := [[0, 0, 0]]

/-- The encoder parameter tensors of `Q` have the architecture shapes of
`Q1` (`input_dim = 3`, `code_dim = 2`, both hidden sizes 1) — the invariant
any optimizer step preserves, since `apply_gradients` updates each tensor in
place with a gradient of its own shape. -/
def EncShapes31 (Q : MLPVariationalAutoEncoder ℝ) : Prop :=
  Wf Q.enc_W0 1 3 ∧ Wf Q.enc_b0 1 1 ∧ Wf Q.enc_W1 1 1 ∧ Wf Q.enc_b1 1 1 ∧
    Wf Q.enc_W2 (2 * 2) 1 ∧ Wf Q.enc_b2 (2 * 2) 1

instance (Q : MLPVariationalAutoEncoder ℝ) : Decidable (EncShapes31 Q) :=
  inferInstanceAs (Decidable (Wf Q.enc_W0 1 3 ∧ Wf Q.enc_b0 1 1 ∧ Wf Q.enc_W1 1 1 ∧
    Wf Q.enc_b1 1 1 ∧ Wf Q.enc_W2 (2 * 2) 1 ∧ Wf Q.enc_b2 (2 * 2) 1))

theorem hidden_1_dim_eq (i c : ℕ) : hidden_1_dim i c = (3 * i + c) / 4 := by
  unfold hidden_1_dim
  have h : (i : ℚ) - ((i : ℚ) - (c : ℚ)) / 4 = ((3 * i + c : ℕ) : ℚ) / ((4 : ℕ) : ℚ) := by
    push_cast
    ring
  rw [h, Int.floor_toNat, Nat.floor_div_nat, Nat.floor_natCast]

theorem hidden_2_dim_eq (i c : ℕ) : hidden_2_dim i c = (i + 3 * c) / 4 := by
  unfold hidden_2_dim
  have h : (i : ℚ) - 3 * ((i : ℚ) - (c : ℚ)) / 4 = ((i + 3 * c : ℕ) : ℚ) / ((4 : ℕ) : ℚ) := by
    push_cast
    ring
  rw [h, Int.floor_toNat, Nat.floor_div_nat, Nat.floor_natCast]

theorem mem_zipWith_elim {α β γ : Type} {f : α → β → γ} {l1 : List α} {l2 : List β} {x : γ}
    (h : x ∈ List.zipWith f l1 l2) :
    ∃ i, ∃ h1 : i < l1.length, ∃ h2 : i < l2.length,
      x = f (l1.get ⟨i, h1⟩) (l2.get ⟨i, h2⟩) := by
  rw [List.mem_iff_getElem] at h
  obtain ⟨i, hi, hx⟩ := h
  rw [List.length_zipWith] at hi
  refine ⟨i, by omega, by omega, ?_⟩
  rw [← hx]
  simp [List.getElem_zipWith]

theorem wf_matmulTB {α : Type} [LinearOrderedField α] (A B : Mat α) (m n k l : ℕ)
    (hA : Wf A m k) (hB : Wf B n l) : Wf (matmulTB A B) m n := by
  obtain ⟨hAl, _⟩ := hA
  obtain ⟨hBl, _⟩ := hB
  refine ⟨by simp [matmulTB, hAl], ?_⟩
  intro r hr
  simp only [matmulTB, List.mem_map] at hr
  obtain ⟨ra, _, rfl⟩ := hr
  simp [hBl]

theorem wf_matTranspose {α : Type} [LinearOrderedField α] (B : Mat α) (k n : ℕ)
    (hk : 0 < k) (hB : Wf B k n) : Wf (matTranspose B) n k := by
  obtain ⟨hBl, hBr⟩ := hB
  cases B with
  | nil => simp at hBl; omega
  | cons r B' =>
    have hr : r.length = n := hBr r (by simp)
    refine ⟨by simp [matTranspose, hr], ?_⟩
    intro row hrow
    simp only [matTranspose, List.mem_map] at hrow
    obtain ⟨j, _, rfl⟩ := hrow
    simpa using hBl

theorem wf_matmul {α : Type} [LinearOrderedField α] (A B : Mat α) (m n k : ℕ)
    (hk : 0 < k) (hA : Wf A m k) (hB : Wf B k n) : Wf (matmul A B) m n :=
  wf_matmulTB A (matTranspose B) m n k k hA (wf_matTranspose B k n hk hB)

theorem wf_addColVec {α : Type} [LinearOrderedField α] (A b : Mat α) (m n : ℕ)
    (hA : Wf A m n) (hb : Wf b m 1) : Wf (addColVec A b) m n := by
  obtain ⟨hAl, hAr⟩ := hA
  obtain ⟨hbl, _⟩ := hb
  refine ⟨by simp [addColVec, hAl, hbl], ?_⟩
  intro r hr
  simp only [addColVec] at hr
  obtain ⟨i, hi, hi2, rfl⟩ := mem_zipWith_elim hr
  simp only [List.length_map]
  exact hAr _ (List.get_mem A i hi)

theorem wf_mapMat {α : Type} (f : α → α) (A : Mat α) (m n : ℕ)
    (hA : Wf A m n) : Wf (mapMat f A) m n := by
  obtain ⟨hAl, hAr⟩ := hA
  refine ⟨by simp [mapMat, hAl], ?_⟩
  intro r hr
  simp only [mapMat, List.mem_map] at hr
  obtain ⟨ra, hra, rfl⟩ := hr
  simp [hAr ra hra]

theorem wf_zipWithMat {α : Type} (f : α → α → α) (A B : Mat α) (m n : ℕ)
    (hA : Wf A m n) (hB : Wf B m n) : Wf (zipWithMat f A B) m n := by
  obtain ⟨hAl, hAr⟩ := hA
  obtain ⟨hBl, hBr⟩ := hB
  refine ⟨by simp [zipWithMat, hAl, hBl], ?_⟩
  intro r hr
  simp only [zipWithMat] at hr
  obtain ⟨i, hi, hi2, rfl⟩ := mem_zipWith_elim hr
  simp only [List.length_zipWith]
  rw [hAr _ (List.get_mem A i hi), hBr _ (List.get_mem B i hi2)]
  omega

theorem wf_randnMat {α : Type} [LinearOrderedField α] (ω : ℕ → ℕ → α) (r c : ℕ) :
    Wf (randnMat ω r c) r c := by
  refine ⟨by simp [randnMat], ?_⟩
  intro row hrow
  simp only [randnMat, List.mem_map] at hrow
  obtain ⟨a, _, rfl⟩ := hrow
  simp

theorem wf_zerosCol {α : Type} [LinearOrderedField α] (r : ℕ) : Wf (zerosCol r : Mat α) r 1 := by
  refine ⟨by simp [zerosCol], ?_⟩
  intro row hrow
  simp only [zerosCol, List.mem_map] at hrow
  obtain ⟨a, _, rfl⟩ := hrow
  simp

theorem headD_length_of_wf {α : Type} {A : Mat α} {m n : ℕ} (h : Wf A m n) (hm : 0 < m) :
    (A.headD []).length = n := by
  obtain ⟨hl, hr⟩ := h
  cases A with
  | nil => simp at hl; omega
  | cons r t => exact hr r (by simp)

theorem matShape_of_wf {α : Type} {A : Mat α} {m n : ℕ} (h : Wf A m n) (hm : 0 < m) :
    matShape A = (m, n) := by
  unfold matShape
  rw [h.1, headD_length_of_wf h hm]

/-- The twelve parameter tensors built by `__init__` have the shapes written
in the source, with the two hidden sizes given by `hidden_1_dim` and
`hidden_2_dim`. -/
theorem init_wf {α : Type} [LinearOrderedField α] {ω : ℕ → ℕ → ℕ → α} {i c : ℕ}
    {P : MLPVariationalAutoEncoder α}
    (h : MLPVariationalAutoEncoder.init ω i c = some P) :
    Wf P.enc_W0 (hidden_1_dim i c) i ∧ Wf P.enc_b0 (hidden_1_dim i c) 1 ∧
    Wf P.enc_W1 (hidden_2_dim i c) (hidden_1_dim i c) ∧ Wf P.enc_b1 (hidden_2_dim i c) 1 ∧
    Wf P.enc_W2 (c * 2) (hidden_2_dim i c) ∧ Wf P.enc_b2 (c * 2) 1 ∧
    Wf P.dec_W0 (hidden_2_dim i c) c ∧ Wf P.dec_b0 (hidden_2_dim i c) 1 ∧
    Wf P.dec_W1 (hidden_1_dim i c) (hidden_2_dim i c) ∧ Wf P.dec_b1 (hidden_1_dim i c) 1 ∧
    Wf P.dec_W2 i (hidden_1_dim i c) ∧ Wf P.dec_b2 i 1 := by
  unfold MLPVariationalAutoEncoder.init at h
  by_cases hci : c < i
  · rw [if_pos hci] at h
    obtain rfl : _ = P := Option.some_injective _ h
    exact ⟨wf_randnMat _ _ _, wf_zerosCol _, wf_randnMat _ _ _, wf_zerosCol _,
      wf_randnMat _ _ _, wf_zerosCol _, wf_randnMat _ _ _, wf_zerosCol _,
      wf_randnMat _ _ _, wf_zerosCol _, wf_randnMat _ _ _, wf_zerosCol _⟩
  · rw [if_neg hci] at h
    exact absurd h (by simp)

theorem init_cases {α : Type} [LinearOrderedField α]
    (ω : ℕ → ℕ → ℕ → α) (input_dim code_dim : ℕ) :
    (MLPVariationalAutoEncoder.init ω input_dim code_dim = none ↔ input_dim ≤ code_dim) ∧
    (code_dim < input_dim →
      ∃ P, MLPVariationalAutoEncoder.init ω input_dim code_dim = some P) := by
  constructor
  · unfold MLPVariationalAutoEncoder.init
    by_cases h : code_dim < input_dim
    · rw [if_pos h]
      simp
      omega
    · rw [if_neg h]
      simp
      omega
  · intro h
    unfold MLPVariationalAutoEncoder.init
    rw [if_pos h]
    exact ⟨_, rfl⟩

/-- Claim C10: for `input_dim > code_dim > 0` the truncated hidden sizes
satisfy `code_dim ≤ hidden_2_dim ≤ hidden_1_dim < input_dim`, so every layer
width of the encoder and the decoder (`input_dim`, `hidden_1_dim`,
`hidden_2_dim`, `2 * code_dim`, `code_dim`) is positive and the widths are
monotonically ordered. -/
theorem hidden_dims_ordered (input_dim code_dim : ℕ)
    (hc : 0 < code_dim) (hci : code_dim < input_dim) :
    code_dim ≤ hidden_2_dim input_dim code_dim ∧
    hidden_2_dim input_dim code_dim ≤ hidden_1_dim input_dim code_dim ∧
    hidden_1_dim input_dim code_dim < input_dim ∧
    0 < hidden_2_dim input_dim code_dim ∧ 0 < hidden_1_dim input_dim code_dim ∧
    0 < code_dim * 2 ∧ 0 < input_dim := by
  rw [hidden_1_dim_eq, hidden_2_dim_eq]
  omega

theorem hidden_dims_ordered_witness :
    (0 < 36 ∧ 36 < 784) ∧
    (36 ≤ hidden_2_dim 784 36 ∧ hidden_2_dim 784 36 ≤ hidden_1_dim 784 36 ∧
     hidden_1_dim 784 36 < 784 ∧ 0 < hidden_2_dim 784 36 ∧ 0 < hidden_1_dim 784 36 ∧
     0 < 36 * 2 ∧ 0 < 784) :=
  ⟨⟨by decide, by decide⟩, hidden_dims_ordered 784 36 (by decide) (by decide)⟩

/-- Claim C9: model construction fails with the assertion if and only if
`code_dim >= input_dim`; in the failing case no parameter tensor is built
(no model value exists), and otherwise a model is created. -/
theorem init_none_iff_code_dim_ge {α : Type} [LinearOrderedField α]
    (ω : ℕ → ℕ → ℕ → α) (input_dim code_dim : ℕ) :
    (MLPVariationalAutoEncoder.init ω input_dim code_dim = none ↔ input_dim ≤ code_dim) ∧
    (code_dim < input_dim →
      ∃ P, MLPVariationalAutoEncoder.init ω input_dim code_dim = some P) :=
  init_cases ω input_dim code_dim

theorem init_none_iff_witness :
    (MLPVariationalAutoEncoder.init (fun _ _ _ => (0 : ℚ)) 3 5 = none ↔ (3 : ℕ) ≤ 5) ∧
    ((5 : ℕ) < 3 →
      ∃ P, MLPVariationalAutoEncoder.init (fun _ _ _ => (0 : ℚ)) 3 5 = some P) :=
  init_none_iff_code_dim_ge (fun _ _ _ => (0 : ℚ)) 3 5

/-- Claim C4 as stated is false: at `input_dim = 6, code_dim = 1` the first
encoder weight tensor has 4 rows (the source truncates with `int`), but the
claimed formula value `input_dim - (input_dim - code_dim)/4` is `4.75` under
exact division and `5` under floor division of the subtrahend — neither
equals `4`. -/
theorem init_shapes_counterexample :
    (MLPVariationalAutoEncoder.init (fun _ _ _ => (0 : ℚ)) 6 1).map
        (fun P => P.enc_W0.length) = some 4 ∧
    ((6 : ℚ) - ((6 : ℚ) - (1 : ℚ)) / 4 ≠ (4 : ℚ)) ∧
    (6 - (6 - 1) / 4 ≠ 4) := by
  refine ⟨?_, by norm_num, by decide⟩
  obtain ⟨P, hP⟩ := (init_cases (fun _ _ _ => (0 : ℚ)) 6 1).2 (by norm_num)
  have h1 : P.enc_W0.length = hidden_1_dim 6 1 := (init_wf hP).1.1
  rw [hP]
  simp only [Option.map]
  rw [h1, hidden_1_dim_eq]

/-- Claim C4 (amended): for every `input_dim > code_dim > 0`, construction
succeeds and produces 12 parameter tensors whose shapes satisfy the linear
interpolation formulas with the division truncated to an integer exactly as
in the source (`hidden_1_dim = int(input_dim - (input_dim - code_dim)/4)`,
`hidden_2_dim = int(input_dim - 3*(input_dim - code_dim)/4)`), and the
encoder's final layer output width equals `2 * code_dim`. -/
theorem init_shapes {α : Type} [LinearOrderedField α] (ω : ℕ → ℕ → ℕ → α) (i c : ℕ)
    (_hc : 0 < c) (hci : c < i) :
    ∃ P, MLPVariationalAutoEncoder.init ω i c = some P ∧
      Wf P.enc_W0 (hidden_1_dim i c) i ∧ Wf P.enc_b0 (hidden_1_dim i c) 1 ∧
      Wf P.enc_W1 (hidden_2_dim i c) (hidden_1_dim i c) ∧ Wf P.enc_b1 (hidden_2_dim i c) 1 ∧
      Wf P.enc_W2 (2 * c) (hidden_2_dim i c) ∧ Wf P.enc_b2 (2 * c) 1 ∧
      Wf P.dec_W0 (hidden_2_dim i c) c ∧ Wf P.dec_b0 (hidden_2_dim i c) 1 ∧
      Wf P.dec_W1 (hidden_1_dim i c) (hidden_2_dim i c) ∧ Wf P.dec_b1 (hidden_1_dim i c) 1 ∧
      Wf P.dec_W2 i (hidden_1_dim i c) ∧ Wf P.dec_b2 i 1 := by
  obtain ⟨P, hP⟩ := (init_cases ω i c).2 hci
  have h12 := init_wf hP
  rw [Nat.mul_comm c 2] at h12
  exact ⟨P, hP, h12⟩

theorem init_shapes_witness :
    ((0 : ℕ) < 1 ∧ 1 < 5) ∧
    (∃ P, MLPVariationalAutoEncoder.init (fun _ _ _ => (0 : ℚ)) 5 1 = some P ∧
      Wf P.enc_W0 (hidden_1_dim 5 1) 5 ∧ Wf P.enc_b0 (hidden_1_dim 5 1) 1 ∧
      Wf P.enc_W1 (hidden_2_dim 5 1) (hidden_1_dim 5 1) ∧ Wf P.enc_b1 (hidden_2_dim 5 1) 1 ∧
      Wf P.enc_W2 (2 * 1) (hidden_2_dim 5 1) ∧ Wf P.enc_b2 (2 * 1) 1 ∧
      Wf P.dec_W0 (hidden_2_dim 5 1) 1 ∧ Wf P.dec_b0 (hidden_2_dim 5 1) 1 ∧
      Wf P.dec_W1 (hidden_1_dim 5 1) (hidden_2_dim 5 1) ∧ Wf P.dec_b1 (hidden_1_dim 5 1) 1 ∧
      Wf P.dec_W2 5 (hidden_1_dim 5 1) ∧ Wf P.dec_b2 5 1) :=
  ⟨⟨by decide, by decide⟩, init_shapes (fun _ _ _ => (0 : ℚ)) 5 1 (by decide) (by decide)⟩

theorem wf_map_take {α : Type} (A : Mat α) (m n c : ℕ) (h : Wf A m n) (hc : c ≤ n) :
    Wf (A.map (fun r => r.take c)) m c := by
  refine ⟨by simp [h.1], ?_⟩
  intro r hr
  simp only [List.mem_map] at hr
  obtain ⟨ra, hra, rfl⟩ := hr
  simp only [List.length_take, h.2 ra hra]
  omega

theorem wf_map_drop_map {α : Type} (f : α → α) (A : Mat α) (m n c : ℕ) (h : Wf A m n) :
    Wf (A.map (fun r => (r.drop c).map f)) m (n - c) := by
  refine ⟨by simp [h.1], ?_⟩
  intro r hr
  simp only [List.mem_map] at hr
  obtain ⟨ra, hra, rfl⟩ := hr
  simp [h.2 ra hra]

theorem encode_eq {α : Type} [LinearOrderedField α] (self : MLPVariationalAutoEncoder α)
    (inputs : Mat α) :
    self.encode inputs =
      ((encPre self inputs).map (fun r => r.take (((encPre self inputs).headD []).length / 2)),
       (encPre self inputs).map (fun r =>
         (r.drop (((encPre self inputs).headD []).length / 2)).map (fun x => |x|))) := rfl

theorem encPre_wf {α : Type} [LinearOrderedField α]
    (P : MLPVariationalAutoEncoder α) (inputs : Mat α) (batch i c h1 h2 : ℕ)
    (hW0 : Wf P.enc_W0 h1 i) (hb0 : Wf P.enc_b0 h1 1)
    (hW1 : Wf P.enc_W1 h2 h1) (hb1 : Wf P.enc_b1 h2 1)
    (hW2 : Wf P.enc_W2 (c * 2) h2) (hb2 : Wf P.enc_b2 (c * 2) 1)
    (hin : Wf inputs batch i) (h1pos : 0 < h1) (h2pos : 0 < h2) (hc : 0 < c) :
    Wf (encPre P inputs) batch (c * 2) := by
  have t1 := wf_matmulTB P.enc_W0 inputs h1 batch i i hW0 hin
  have a1 := wf_addColVec _ _ _ _ t1 hb0
  have m1 := wf_mapMat leakyRelu _ _ _ a1
  have t2 := wf_matmul P.enc_W1 _ h2 batch h1 h1pos hW1 m1
  have a2 := wf_addColVec _ _ _ _ t2 hb1
  have m2 := wf_mapMat leakyRelu _ _ _ a2
  have t3 := wf_matmul P.enc_W2 _ (c * 2) batch h2 h2pos hW2 m2
  have a3 := wf_addColVec _ _ _ _ t3 hb2
  exact wf_matTranspose _ (c * 2) batch (by omega) a3

theorem encode_spec {α : Type} [LinearOrderedField α]
    (P : MLPVariationalAutoEncoder α) (inputs : Mat α) (batch i c h1 h2 : ℕ)
    (hW0 : Wf P.enc_W0 h1 i) (hb0 : Wf P.enc_b0 h1 1)
    (hW1 : Wf P.enc_W1 h2 h1) (hb1 : Wf P.enc_b1 h2 1)
    (hW2 : Wf P.enc_W2 (c * 2) h2) (hb2 : Wf P.enc_b2 (c * 2) 1)
    (hin : Wf inputs batch i) (hbatch : 0 < batch)
    (h1pos : 0 < h1) (h2pos : 0 < h2) (hc : 0 < c) :
    Wf (P.encode inputs).1 batch c ∧ Wf (P.encode inputs).2 batch c ∧
      (∀ x, matMem x (P.encode inputs).2 → 0 ≤ x) ∧
      (P.encode inputs).1 = (encPre P inputs).map (fun r => r.take c) ∧
      (P.encode inputs).2 = (encPre P inputs).map (fun r => (r.drop c).map (fun x => |x|)) := by
  have hED : Wf (encPre P inputs) batch (c * 2) :=
    encPre_wf P inputs batch i c h1 h2 hW0 hb0 hW1 hb1 hW2 hb2 hin h1pos h2pos hc
  have hcd : ((encPre P inputs).headD []).length / 2 = c := by
    rw [headD_length_of_wf hED hbatch]
    omega
  rw [encode_eq, hcd]
  have hdrop := wf_map_drop_map (fun x => |x|) (encPre P inputs) batch (c * 2) c hED
  have h2c : c * 2 - c = c := by omega
  rw [h2c] at hdrop
  refine ⟨wf_map_take _ batch (c * 2) c hED (by omega), hdrop, ?_, rfl, rfl⟩
  intro x hx
  obtain ⟨r, hr, hxr⟩ := hx
  simp only [List.mem_map] at hr
  obtain ⟨ra, _, rfl⟩ := hr
  simp only [List.mem_map] at hxr
  obtain ⟨y, _, rfl⟩ := hxr
  exact abs_nonneg y

/-- Claim C5: on a batch of inputs of width `input_dim`, `encode` returns a
pair `(mean, stddev)` of tensors, each of shape `(batch, code_dim)`, obtained
by splitting the transposed `2 * code_dim`-wide final linear output
(`encPre`) in half, and every `stddev` entry is an absolute value, hence
non-negative. -/
theorem encode_splits_mean_stddev {α : Type} [LinearOrderedField α]
    (P : MLPVariationalAutoEncoder α) (inputs : Mat α) (batch i c h1 h2 : ℕ)
    (hW0 : Wf P.enc_W0 h1 i) (hb0 : Wf P.enc_b0 h1 1)
    (hW1 : Wf P.enc_W1 h2 h1) (hb1 : Wf P.enc_b1 h2 1)
    (hW2 : Wf P.enc_W2 (c * 2) h2) (hb2 : Wf P.enc_b2 (c * 2) 1)
    (hin : Wf inputs batch i) (hbatch : 0 < batch)
    (h1pos : 0 < h1) (h2pos : 0 < h2) (hc : 0 < c) :
    Wf (P.encode inputs).1 batch c ∧ Wf (P.encode inputs).2 batch c ∧
      (∀ x, matMem x (P.encode inputs).2 → 0 ≤ x) ∧
      (P.encode inputs).1 = (encPre P inputs).map (fun r => r.take c) ∧
      (P.encode inputs).2 = (encPre P inputs).map (fun r => (r.drop c).map (fun x => |x|)) :=
  encode_spec P inputs batch i c h1 h2 hW0 hb0 hW1 hb1 hW2 hb2 hin hbatch h1pos h2pos hc

theorem encode_splits_mean_stddev_witness :
    (Wf P0.enc_W0 1 2 ∧ Wf P0.enc_b0 1 1 ∧ Wf P0.enc_W1 1 1 ∧ Wf P0.enc_b1 1 1 ∧
     Wf P0.enc_W2 (1 * 2) 1 ∧ Wf P0.enc_b2 (1 * 2) 1 ∧ Wf X0 1 2) ∧
    (Wf (P0.encode X0).1 1 1 ∧ Wf (P0.encode X0).2 1 1 ∧
      (∀ x, matMem x (P0.encode X0).2 → 0 ≤ x) ∧
      (P0.encode X0).1 = (encPre P0 X0).map (fun r => r.take 1) ∧
      (P0.encode X0).2 = (encPre P0 X0).map (fun r => (r.drop 1).map (fun x => |x|))) :=
  ⟨⟨by decide, by decide, by decide, by decide, by decide, by decide, by decide⟩,
    encode_splits_mean_stddev P0 X0 1 2 1 1 1 (by decide) (by decide) (by decide) (by decide)
      (by decide) (by decide) (by decide) (by decide) (by decide) (by decide) (by decide)⟩

theorem matMem_matTranspose {α : Type} [LinearOrderedField α] {A : Mat α} {x : α}
    (h : matMem x (matTranspose A)) : matMem x A ∨ x = 0 := by
  obtain ⟨r, hr, hx⟩ := h
  simp only [matTranspose, List.mem_map] at hr
  obtain ⟨j, _, rfl⟩ := hr
  simp only [List.mem_map] at hx
  obtain ⟨row, hrow, rfl⟩ := hx
  by_cases hj : j < row.length
  · left
    refine ⟨row, hrow, ?_⟩
    rw [List.getD_eq_getElem row 0 hj]
    exact List.getElem_mem hj
  · right
    exact List.getD_eq_default row 0 (by omega)

theorem matMem_mapMat {α : Type} {f : α → α} {A : Mat α} {x : α}
    (h : matMem x (mapMat f A)) : ∃ y, matMem y A ∧ x = f y := by
  obtain ⟨r, hr, hx⟩ := h
  simp only [mapMat, List.mem_map] at hr
  obtain ⟨ra, hra, rfl⟩ := hr
  simp only [List.mem_map] at hx
  obtain ⟨y, hy, rfl⟩ := hx
  exact ⟨y, ⟨ra, hra, hy⟩, rfl⟩

theorem sigmoid_nonneg (x : ℝ) : 0 ≤ sigmoid x := by
  unfold sigmoid
  positivity

theorem sigmoid_le_one (x : ℝ) : sigmoid x ≤ 1 := by
  unfold sigmoid
  rw [div_le_one (by positivity)]
  have := Real.exp_pos (-x)
  linarith

theorem decode_eq (self : MLPVariationalAutoEncoder ℝ) (sampled_encoding : Mat ℝ) :
    self.decode sampled_encoding = matTranspose (mapMat sigmoid (decPre self sampled_encoding)) :=
  rfl

theorem decPre_wf (P : MLPVariationalAutoEncoder ℝ) (s : Mat ℝ) (batch i c h1 h2 : ℕ)
    (hW0 : Wf P.dec_W0 h2 c) (hb0 : Wf P.dec_b0 h2 1)
    (hW1 : Wf P.dec_W1 h1 h2) (hb1 : Wf P.dec_b1 h1 1)
    (hW2 : Wf P.dec_W2 i h1) (hb2 : Wf P.dec_b2 i 1)
    (hs : Wf s batch c) (h1pos : 0 < h1) (h2pos : 0 < h2) :
    Wf (decPre P s) i batch := by
  have t1 := wf_matmulTB P.dec_W0 s h2 batch c c hW0 hs
  have a1 := wf_addColVec _ _ _ _ t1 hb0
  have m1 := wf_mapMat leakyRelu _ _ _ a1
  have t2 := wf_matmul P.dec_W1 _ h1 batch h2 h2pos hW1 m1
  have a2 := wf_addColVec _ _ _ _ t2 hb1
  have m2 := wf_mapMat leakyRelu _ _ _ a2
  have t3 := wf_matmul P.dec_W2 _ i batch h1 h1pos hW2 m2
  exact wf_addColVec _ _ _ _ t3 hb2

/-- Claim C6: `decode` on a batch of code vectors of shape
`(batch, code_dim)` returns a tensor of shape `(batch, input_dim)` in which
every value lies in `[0, 1]` (the final linear layer is passed through a
sigmoid before the transpose). -/
theorem decode_shape_and_range (P : MLPVariationalAutoEncoder ℝ) (s : Mat ℝ)
    (batch i c h1 h2 : ℕ)
    (hW0 : Wf P.dec_W0 h2 c) (hb0 : Wf P.dec_b0 h2 1)
    (hW1 : Wf P.dec_W1 h1 h2) (hb1 : Wf P.dec_b1 h1 1)
    (hW2 : Wf P.dec_W2 i h1) (hb2 : Wf P.dec_b2 i 1)
    (hs : Wf s batch c) (h1pos : 0 < h1) (h2pos : 0 < h2) (hipos : 0 < i) :
    Wf (P.decode s) batch i ∧
      ∀ x, matMem x (P.decode s) → 0 ≤ x ∧ x ≤ 1 := by
  have hpre : Wf (decPre P s) i batch :=
    decPre_wf P s batch i c h1 h2 hW0 hb0 hW1 hb1 hW2 hb2 hs h1pos h2pos
  have hsig : Wf (mapMat sigmoid (decPre P s)) i batch := wf_mapMat _ _ _ _ hpre
  rw [decode_eq]
  refine ⟨wf_matTranspose _ i batch hipos hsig, ?_⟩
  intro x hx
  rcases matMem_matTranspose hx with hmem | rfl
  · obtain ⟨y, _, rfl⟩ := matMem_mapMat hmem
    exact ⟨sigmoid_nonneg y, sigmoid_le_one y⟩
  · norm_num

theorem decode_shape_and_range_witness :
    (Wf Q0.dec_W0 1 1 ∧ Wf Q0.dec_b0 1 1 ∧ Wf Q0.dec_W1 1 1 ∧ Wf Q0.dec_b1 1 1 ∧
     Wf Q0.dec_W2 2 1 ∧ Wf Q0.dec_b2 2 1 ∧ Wf S0 1 1) ∧
    (Wf (Q0.decode S0) 1 2 ∧ ∀ x, matMem x (Q0.decode S0) → 0 ≤ x ∧ x ≤ 1) :=
  ⟨⟨by decide, by decide, by decide, by decide, by decide, by decide, by decide⟩,
    decode_shape_and_range Q0 S0 1 2 1 1 1 (by decide) (by decide) (by decide) (by decide)
      (by decide) (by decide) (by decide) (by decide) (by decide) (by decide)⟩

theorem wf_rangeMat {α : Type} (g : ℕ → ℕ → α) (m n : ℕ) :
    Wf ((List.range m).map (fun i => (List.range n).map (g i))) m n := by
  refine ⟨by simp, ?_⟩
  intro r hr
  simp only [List.mem_map] at hr
  obtain ⟨i, _, rfl⟩ := hr
  simp

theorem sample_encoding_none_iff {α : Type} [LinearOrderedField α]
    (mean stddev : Mat α) (η : ℕ → ℕ → α) :
    MLPVariationalAutoEncoder.sample_encoding mean stddev η = none ↔
      matShape mean ≠ matShape stddev := by
  unfold MLPVariationalAutoEncoder.sample_encoding
  by_cases h : matShape mean = matShape stddev
  · rw [if_pos h]
    simp [h]
  · rw [if_neg h]
    simp [h]

theorem sample_encoding_some {α : Type} [LinearOrderedField α]
    (mean stddev : Mat α) (η : ℕ → ℕ → α) (h : matShape mean = matShape stddev) :
    MLPVariationalAutoEncoder.sample_encoding mean stddev η =
      some ((List.range mean.length).map (fun i =>
        (List.range (mean.headD []).length).map (fun j =>
          (mean.getD i []).getD j 0 + (stddev.getD i []).getD j 0 * η i j))) :=
  if_pos h

/-- Claim C7: `sample_encoding` fails with the shape assertion if and only
if the mean and stddev tensors have mismatched shapes; when the shapes match
it returns a tensor of that same shape. -/
theorem sample_encoding_shape_check {α : Type} [LinearOrderedField α]
    (mean stddev : Mat α) (η : ℕ → ℕ → α) (m n m2 n2 : ℕ)
    (hm : Wf mean m n) (hs : Wf stddev m2 n2) (hm0 : 0 < m) (hm20 : 0 < m2) :
    (MLPVariationalAutoEncoder.sample_encoding mean stddev η = none ↔ (m, n) ≠ (m2, n2)) ∧
    ((m, n) = (m2, n2) →
      ∃ t, MLPVariationalAutoEncoder.sample_encoding mean stddev η = some t ∧ Wf t m n) := by
  have h1 := matShape_of_wf hm hm0
  have h2 := matShape_of_wf hs hm20
  constructor
  · rw [sample_encoding_none_iff, h1, h2]
  · intro heq
    refine ⟨_, sample_encoding_some mean stddev η (by rw [h1, h2, heq]), ?_⟩
    rw [hm.1, headD_length_of_wf hm hm0]
    exact wf_rangeMat _ m n

theorem sample_encoding_shape_check_witness :
    (Wf [[(0 : ℚ)]] 1 1 ∧ Wf [[(2 : ℚ)]] 1 1) ∧
    ((MLPVariationalAutoEncoder.sample_encoding [[(0 : ℚ)]] [[(2 : ℚ)]] (fun _ _ => 0) = none ↔
        ((1 : ℕ), (1 : ℕ)) ≠ ((1 : ℕ), (1 : ℕ))) ∧
     (((1 : ℕ), (1 : ℕ)) = ((1 : ℕ), (1 : ℕ)) →
       ∃ t, MLPVariationalAutoEncoder.sample_encoding [[(0 : ℚ)]] [[(2 : ℚ)]]
          (fun _ _ => 0) = some t ∧ Wf t 1 1)) :=
  ⟨⟨by decide, by decide⟩,
    sample_encoding_shape_check [[(0 : ℚ)]] [[(2 : ℚ)]] (fun _ _ => 0) 1 1 1 1
      (by decide) (by decide) (by decide) (by decide)⟩

/-- The affine shift/scale of a standard normal draw has the normal law with
the shifted mean and scaled variance. -/
theorem gaussianReal_shift_scale (m0 s0 : ℝ) :
    MeasureTheory.Measure.map (fun z => m0 + s0 * z) (ProbabilityTheory.gaussianReal 0 1) =
      ProbabilityTheory.gaussianReal m0 ⟨s0 ^ 2, sq_nonneg s0⟩ := by
  have hcomp : (fun z : ℝ => m0 + s0 * z) = (fun y : ℝ => m0 + y) ∘ (fun z : ℝ => s0 * z) := rfl
  have hg : Measurable fun y : ℝ => m0 + y := measurable_const.add measurable_id
  have hf : Measurable fun z : ℝ => s0 * z := measurable_const.mul measurable_id
  rw [hcomp, ← MeasureTheory.Measure.map_map hg hf]
  rw [ProbabilityTheory.gaussianReal_map_const_mul s0,
    ProbabilityTheory.gaussianReal_map_const_add m0]
  have hv : (⟨s0 ^ 2, sq_nonneg s0⟩ : NNReal) * 1 = ⟨s0 ^ 2, sq_nonneg s0⟩ := mul_one _
  rw [hv]
  norm_num

/-- Claim C2: `sample_encoding` is the reparameterization: on matching
shapes it returns exactly `mean + stddev * noise` elementwise — an explicit
shift/scale of the standard normal noise `η`, the form through which
gradients flow to `mean` and `stddev` — and the per-coordinate shift/scale
map `z ↦ m0 + s0 * z` pushes the standard normal `N(0,1)` forward to the
Gaussian with mean `m0` and variance `s0^2`, so the draw is equivalent in
distribution to sampling `N(mean, stddev)` independently per coordinate. -/
theorem sample_encoding_reparameterized (mean stddev : Mat ℝ) (η : ℕ → ℕ → ℝ) (m n : ℕ)
    (hm : Wf mean m n) (hs : Wf stddev m n) (hm0 : 0 < m) :
    MLPVariationalAutoEncoder.sample_encoding mean stddev η =
      some ((List.range m).map (fun i => (List.range n).map (fun j =>
        (mean.getD i []).getD j 0 + (stddev.getD i []).getD j 0 * η i j))) ∧
    ∀ m0 s0 : ℝ,
      MeasureTheory.Measure.map (fun z => m0 + s0 * z) (ProbabilityTheory.gaussianReal 0 1) =
        ProbabilityTheory.gaussianReal m0 ⟨s0 ^ 2, sq_nonneg s0⟩ := by
  constructor
  · rw [sample_encoding_some mean stddev η
      (by rw [matShape_of_wf hm hm0, matShape_of_wf hs hm0])]
    rw [hm.1, headD_length_of_wf hm hm0]
  · exact gaussianReal_shift_scale

theorem sample_encoding_reparameterized_witness :
    (Wf [[(1 : ℝ)]] 1 1 ∧ Wf [[(2 : ℝ)]] 1 1) ∧
    (MLPVariationalAutoEncoder.sample_encoding [[(1 : ℝ)]] [[(2 : ℝ)]] (fun _ _ => 3) =
      some ((List.range 1).map (fun i => (List.range 1).map (fun j =>
        (([[(1 : ℝ)]].getD i []).getD j 0 + ([[(2 : ℝ)]].getD i []).getD j 0 * 3)))) ∧
     ∀ m0 s0 : ℝ,
       MeasureTheory.Measure.map (fun z => m0 + s0 * z) (ProbabilityTheory.gaussianReal 0 1) =
         ProbabilityTheory.gaussianReal m0 ⟨s0 ^ 2, sq_nonneg s0⟩) :=
  ⟨⟨by decide, by decide⟩,
    sample_encoding_reparameterized [[(1 : ℝ)]] [[(2 : ℝ)]] (fun _ _ => 3) 1 1
      (by decide) (by decide) (by decide)⟩

theorem loss_eq_some (P : MLPVariationalAutoEncoder ℝ) (inputs : Mat ℝ) (η : ℕ → ℕ → ℝ)
    (E : Mat ℝ)
    (hE : MLPVariationalAutoEncoder.sample_encoding (P.encode inputs).1 (P.encode inputs).2 η
      = some E) :
    P.loss inputs η = some (mapMat (fun k =>
      (3 * reduce_mean (mean_squared_error_rows inputs (P.decode E)) + k) / 4)
      (zipWithMat klNormalStd (P.encode inputs).1 (P.encode inputs).2)) := by
  unfold MLPVariationalAutoEncoder.loss
  dsimp only
  rw [hE]

theorem loss_some_wf (P : MLPVariationalAutoEncoder ℝ) (inputs : Mat ℝ) (η : ℕ → ℕ → ℝ)
    (batch i c h1 h2 : ℕ)
    (hW0 : Wf P.enc_W0 h1 i) (hb0 : Wf P.enc_b0 h1 1)
    (hW1 : Wf P.enc_W1 h2 h1) (hb1 : Wf P.enc_b1 h2 1)
    (hW2 : Wf P.enc_W2 (c * 2) h2) (hb2 : Wf P.enc_b2 (c * 2) 1)
    (hin : Wf inputs batch i) (hbatch : 0 < batch)
    (h1pos : 0 < h1) (h2pos : 0 < h2) (hc : 0 < c) :
    ∃ E M,
      MLPVariationalAutoEncoder.sample_encoding (P.encode inputs).1 (P.encode inputs).2 η
        = some E ∧
      P.loss inputs η = some M ∧
      M = mapMat (fun k =>
        (3 * reduce_mean (mean_squared_error_rows inputs (P.decode E)) + k) / 4)
        (zipWithMat klNormalStd (P.encode inputs).1 (P.encode inputs).2) ∧
      Wf M batch c := by
  obtain ⟨hm, hs, _, _, _⟩ := encode_spec P inputs batch i c h1 h2
    hW0 hb0 hW1 hb1 hW2 hb2 hin hbatch h1pos h2pos hc
  have hshape : matShape (P.encode inputs).1 = matShape (P.encode inputs).2 := by
    rw [matShape_of_wf hm hbatch, matShape_of_wf hs hbatch]
  have hE := sample_encoding_some (P.encode inputs).1 (P.encode inputs).2 η hshape
  refine ⟨_, _, hE, loss_eq_some P inputs η _ hE, rfl, ?_⟩
  exact wf_mapMat _ _ batch c (wf_zipWithMat _ _ _ batch c hm hs)

/-- Claim C1 (amended): on a valid model and a batch of width `input_dim`,
`loss` does not reduce the KL term: it returns a tensor of shape
`(batch, code_dim)` — the elementwise KL divergence between `N(0,1)` and the
encoder's `N(mean, stddev)` combined with the scalar mean-squared-error by
broadcasting — every entry being `(3 * mean_square_error + kl) / 4`. -/
theorem loss_returns_kl_shaped_tensor (P : MLPVariationalAutoEncoder ℝ) (inputs : Mat ℝ)
    (η : ℕ → ℕ → ℝ) (batch i c h1 h2 : ℕ)
    (hW0 : Wf P.enc_W0 h1 i) (hb0 : Wf P.enc_b0 h1 1)
    (hW1 : Wf P.enc_W1 h2 h1) (hb1 : Wf P.enc_b1 h2 1)
    (hW2 : Wf P.enc_W2 (c * 2) h2) (hb2 : Wf P.enc_b2 (c * 2) 1)
    (hin : Wf inputs batch i) (hbatch : 0 < batch)
    (h1pos : 0 < h1) (h2pos : 0 < h2) (hc : 0 < c) :
    ∃ E M,
      MLPVariationalAutoEncoder.sample_encoding (P.encode inputs).1 (P.encode inputs).2 η
        = some E ∧
      P.loss inputs η = some M ∧
      M = mapMat (fun k =>
        (3 * reduce_mean (mean_squared_error_rows inputs (P.decode E)) + k) / 4)
        (zipWithMat klNormalStd (P.encode inputs).1 (P.encode inputs).2) ∧
      Wf M batch c :=
  loss_some_wf P inputs η batch i c h1 h2 hW0 hb0 hW1 hb1 hW2 hb2 hin hbatch h1pos h2pos hc

theorem loss_returns_kl_shaped_tensor_witness :
    (Wf Q0.enc_W0 1 2 ∧ Wf Q0.enc_b0 1 1 ∧ Wf Q0.enc_W1 1 1 ∧ Wf Q0.enc_b1 1 1 ∧
     Wf Q0.enc_W2 (1 * 2) 1 ∧ Wf Q0.enc_b2 (1 * 2) 1 ∧ Wf XR0 1 2) ∧
    (∃ E M,
      MLPVariationalAutoEncoder.sample_encoding (Q0.encode XR0).1 (Q0.encode XR0).2
          (fun _ _ => 0) = some E ∧
      Q0.loss XR0 (fun _ _ => 0) = some M ∧
      M = mapMat (fun k =>
        (3 * reduce_mean (mean_squared_error_rows XR0 (Q0.decode E)) + k) / 4)
        (zipWithMat klNormalStd (Q0.encode XR0).1 (Q0.encode XR0).2) ∧
      Wf M 1 1) :=
  ⟨⟨by decide, by decide, by decide, by decide, by decide, by decide, by decide⟩,
    loss_returns_kl_shaped_tensor Q0 XR0 (fun _ _ => 0) 1 2 1 1 1 (by decide) (by decide)
      (by decide) (by decide) (by decide) (by decide) (by decide) (by decide) (by decide)
      (by decide) (by decide)⟩

/-- Claim C1 as stated is false: on the valid model `Q1` (`input_dim = 3`,
`code_dim = 2`) and a one-example batch, `loss` does not return a single
scalar value: its result is a `(1, 2)`-shaped tensor, one entry per code
coordinate, because the KL term is never reduced. -/
theorem loss_not_scalar_counterexample :
    ¬ ∃ v : ℝ, Q1.loss X1 (fun _ _ => 0) = some [[v]] := by
  obtain ⟨E, M, hE, hM, hMeq, hwf⟩ := loss_some_wf Q1 X1 (fun _ _ => 0) 1 3 2 1 1
    (by decide) (by decide) (by decide) (by decide) (by decide) (by decide) (by decide)
    (by decide) (by decide) (by decide) (by decide)
  rintro ⟨v, hv⟩
  have hMv : M = [[v]] := Option.some_injective _ (hM.symm.trans hv)
  have hlen := hwf.2 [v] (by rw [hMv]; exact List.mem_cons_self _ _)
  simp at hlen

theorem foldl_count {β : Type} (l : List β) (c0 : ℕ) :
    l.foldl (fun n _ => n + 1) c0 = c0 + l.length := by
  induction l generalizing c0 with
  | nil => simp
  | cons x t ih =>
    simp only [List.foldl, List.length_cons, ih]
    omega

/-- Claim C8: one epoch of `train` folds the training step over exactly
`⌊n / batch_size⌋` contiguous batches, batch `k` being rows `k * batch_size`
through `k * batch_size + batch_size - 1` of the training set (every batch
full, the remainder smaller than `batch_size` dropped), with exactly one
training step — hence one optimizer step — applied per batch. -/
theorem epoch_batches {α σ : Type} (training_step : σ → Mat α → σ) (inputs : Mat α)
    (b : ℕ) (hb : 0 < b) :
    (∀ s : σ, epochLoop training_step inputs b s = (batchesOf inputs b).foldl training_step s) ∧
    (batchesOf inputs b).length = inputs.length / b ∧
    (∀ k, k < inputs.length / b →
      ((batchesOf inputs b).getD k []).length = b ∧
      ∀ j, j < b → ((batchesOf inputs b).getD k []).getD j []
        = inputs.getD (k * b + j) []) ∧
    (∀ c0 : ℕ, epochLoop (fun n (_ : Mat α) => n + 1) inputs b c0 = c0 + inputs.length / b) := by
  have hslice : ∀ k, k < inputs.length / b →
      (batchesOf inputs b).getD k [] = (inputs.drop (k * b)).take b := by
    intro k hk
    have hk2 : k < (batchesOf inputs b).length := by simp [batchesOf]; omega
    rw [List.getD_eq_getElem _ _ hk2]
    simp [batchesOf]
  refine ⟨?_, by simp [batchesOf], ?_, ?_⟩
  · intro s
    unfold epochLoop batchesOf
    rw [List.foldl_map]
  · intro k hk
    have hfull : k * b + b ≤ inputs.length := by
      have h1 : k + 1 ≤ inputs.length / b := hk
      have h2 : (k + 1) * b ≤ (inputs.length / b) * b := Nat.mul_le_mul_right b h1
      have h3 : (inputs.length / b) * b ≤ inputs.length := Nat.div_mul_le_self _ _
      have h4 : (k + 1) * b = k * b + b := by ring
      omega
    rw [hslice k hk]
    have hlen : ((inputs.drop (k * b)).take b).length = b := by
      simp
      omega
    refine ⟨hlen, ?_⟩
    intro j hj
    have hj2 : j < ((inputs.drop (k * b)).take b).length := by omega
    rw [List.getD_eq_getElem _ _ hj2, List.getElem_take, List.getElem_drop,
      List.getD_eq_getElem _ _ (by omega)]
  · intro c0
    unfold epochLoop
    show List.foldl (fun (n : ℕ) _ => n + 1) c0 (List.range (inputs.length / b))
      = c0 + inputs.length / b
    rw [foldl_count, List.length_range]

theorem epoch_batches_witness :
    (0 < 2) ∧
    ((∀ s : ℕ, epochLoop (fun n (_ : Mat ℚ) => n + 1) [[1], [2], [3], [4], [5]] 2 s
        = (batchesOf [[1], [2], [3], [4], [5]] 2).foldl (fun n (_ : Mat ℚ) => n + 1) s) ∧
     (batchesOf ([[1], [2], [3], [4], [5]] : Mat ℚ) 2).length
        = ([[1], [2], [3], [4], [5]] : Mat ℚ).length / 2 ∧
     (∀ k, k < ([[1], [2], [3], [4], [5]] : Mat ℚ).length / 2 →
       ((batchesOf ([[1], [2], [3], [4], [5]] : Mat ℚ) 2).getD k []).length = 2 ∧
       ∀ j, j < 2 → ((batchesOf ([[1], [2], [3], [4], [5]] : Mat ℚ) 2).getD k []).getD j []
         = ([[1], [2], [3], [4], [5]] : Mat ℚ).getD (k * 2 + j) []) ∧
     (∀ c0 : ℕ, epochLoop (fun n (_ : Mat ℚ) => n + 1) [[1], [2], [3], [4], [5]] 2 c0
        = c0 + ([[1], [2], [3], [4], [5]] : Mat ℚ).length / 2)) :=
  ⟨by decide,
    epoch_batches (fun n (_ : Mat ℚ) => n + 1) [[1], [2], [3], [4], [5]] 2 (by decide)⟩

theorem foldl_invariant {α σ : Type} (f : σ → α → σ) (I : σ → Prop)
    (hstep : ∀ s x, I s → I (f s x)) :
    ∀ (l : List α) (s : σ), I s → I (l.foldl f s) := by
  intro l
  induction l with
  | nil => intro s hs; exact hs
  | cons x t ih => intro s hs; exact ih _ (hstep _ _ hs)

theorem epochLoop_invariant {α σ : Type} (training_step : σ → Mat α → σ)
    (inputs : Mat α) (batch_size : ℕ) (I : σ → Prop)
    (hstep : ∀ s m, I s → I (training_step s m)) (s : σ) (hs : I s) :
    I (epochLoop training_step inputs batch_size s) := by
  unfold epochLoop
  exact foldl_invariant _ I (fun st bn hst => hstep st _ hst) _ s hs

theorem trainGo_raises {α σ : Type} [LinearOrderedField α]
    (training_step : σ → Mat α → σ) (lossOf : σ → Mat α → Mat α)
    (inputs val_inputs : Mat α) (batch_size : ℕ) (I : σ → Prop)
    (hstep : ∀ s m, I s → I (training_step s m))
    (hcond : ∀ s, I s → lossBreakCond (lossOf s inputs) (lossOf s val_inputs) = none) :
    ∀ (fuel e0 : ℕ) (s : σ) (log : List (ℕ × Mat α × Mat α)),
      I s → e0 ≤ 16 → 16 < e0 + fuel →
      trainGo training_step lossOf inputs val_inputs batch_size e0 fuel s log = none := by
  intro fuel
  induction fuel with
  | zero =>
    intro e0 s log _ h1 h2
    omega
  | succ fuel ih =>
    intro e0 s log hI h1 h2
    have hI1 : I (epochLoop training_step inputs batch_size s) :=
      epochLoop_invariant training_step inputs batch_size I hstep s hI
    simp only [trainGo]
    by_cases h15 : 15 < e0
    · rw [if_pos h15, hcond _ hI1]
    · rw [if_neg h15]
      exact ih (e0 + 1) _ _ hI1 (by omega) (by omega)

theorem lossBreakCond_of_arch (Q : MLPVariationalAutoEncoder ℝ) (η : ℕ → ℕ → ℝ)
    (hQ : EncShapes31 Q) :
    lossBreakCond ((Q.loss X1 η).getD []) ((Q.loss X1 η).getD []) = none := by
  obtain ⟨hW0, hb0, hW1, hb1, hW2, hb2⟩ := hQ
  obtain ⟨E, M, hE, hM, hMeq, hwf⟩ := loss_some_wf Q X1 η 1 3 2 1 1 hW0 hb0 hW1 hb1 hW2 hb2
    (by decide) (by decide) (by decide) (by decide) (by decide)
  rw [hM, Option.getD_some]
  obtain ⟨r, hr⟩ := List.length_eq_one.mp hwf.1
  subst hr
  have hr2 : r.length = 2 := hwf.2 r (by simp)
  obtain ⟨a, b, rfl⟩ := List.length_eq_two.mp hr2
  rfl

/-- Claim C3 (code bug): the stated early stop is the intent — a soft stop,
not an error (spec section 4.6) — but the code cannot take it.  Because
`loss` returns the unreduced `(batch, code_dim)` tensor, once an epoch with
number greater than 15 completes, the comparison
`val_loss - train_loss > train_loss / 32` is tensor arithmetic with more
than one entry whose Python truth value is ill-defined, and the line raises
instead of breaking; the `break` and its report message are unreachable.
Concretely: on any model with the `input_dim = 3, code_dim = 2` architecture
(`Q1`'s shapes), any shape-preserving optimizer step, any noise, any batch
size, every run of at least 16 epochs on the batch `X1` returns the error
(`none`), never a normal termination. -/
theorem train_raises_at_divergence_check
    (training_step : MLPVariationalAutoEncoder ℝ → Mat ℝ → MLPVariationalAutoEncoder ℝ)
    (η : ℕ → ℕ → ℝ) (num_epochs batch_size : ℕ) (P : MLPVariationalAutoEncoder ℝ)
    (hstep : ∀ Q m, EncShapes31 Q → EncShapes31 (training_step Q m))
    (hP : EncShapes31 P) (h16 : 16 ≤ num_epochs) :
    train training_step (fun Q m => (Q.loss m η).getD []) X1 X1 num_epochs batch_size P
      = none := by
  unfold train
  exact trainGo_raises training_step _ X1 X1 batch_size EncShapes31 hstep
    (fun Q hQ => lossBreakCond_of_arch Q η hQ) num_epochs 1 P [] hP (by omega) (by omega)

theorem train_raises_at_divergence_check_witness :
    (EncShapes31 Q1 ∧ 16 ≤ 16) ∧
    train (fun (Q : MLPVariationalAutoEncoder ℝ) (_ : Mat ℝ) => Q)
      (fun Q m => (Q.loss m (fun _ _ => 0)).getD []) X1 X1 16 1 Q1 = none :=
  ⟨⟨by decide, by decide⟩,
    train_raises_at_divergence_check (fun Q _ => Q) (fun _ _ => 0) 16 1 Q1
      (fun _ _ h => h) (by decide) (by decide)⟩
